import Mathlib

/-!
Verification of the NT repository's allocation/assignment engine.

The Python sources are shallowly embedded as Lean functions:
pandas float64 columns become `ℚ` (every concrete value used by the
claims is exactly representable, and the one claim-relevant float
computation was checked to agree with exact rational arithmetic),
`np.ndarray` vectors become `List`, a NaN produced by a 0/0 float
division is modelled as `Option.none`, a raised exception as `none`,
and the external MILP solver (PuLP/CBC) is modelled by its interface:
a status code plus a variable valuation, with the constraint system
that the code posts embedded as an explicit feasibility predicate.
-/

namespace NT

/-! ### Fallback device-allocation policies
Embedding of `final_aed_allocation` (src/code/aed_final_optimization.py,
lines 58-152) and `balanced_aed_allocation`
(src/code/aed_balanced_simple.py, lines 37-94).  The source fixes the
budget at `total_aeds = 6613` (resp. the data's AED total); the budget
appears here as the parameter `B`, and the priority-score column as the
list `ps`. -/

/-- Python `int()` applied to a float: truncation toward zero. -/
def pyInt (q : ℚ) : ℤ := if q < 0 then ⌈q⌉ else ⌊q⌋

/-- One insertion step of the descending sort that embeds
`np.argsort(priority_scores)[::-1]`: indices ordered by strictly
descending priority, ties by ascending index (the tie order is
irrelevant to every claim proved below; `np.argsort`'s introsort is
deterministic but unstable, and all concrete inputs used have distinct
priorities). -/
def insertDesc (p : ℕ → ℚ) (i : ℕ) : List ℕ → List ℕ
  | [] => [i]
  | j :: rest =>
    if p j < p i ∨ (p i = p j ∧ i < j) then i :: j :: rest
    else j :: insertDesc p i rest

/-- `np.argsort(priority_scores)[::-1]`: the subzone indices sorted by
descending priority score.  This is the positional (row-order) reading
of the reversed Series, the one `balanced_aed_allocation` iterates
with `enumerate`. -/
def argsortDesc (ps : List ℚ) : List ℕ :=
  (List.range ps.length).foldr (insertDesc fun i => ps.getD i 0) []

/-- One insertion step of the ascending sort embedding `np.argsort`
itself (ties by ascending index, as for `insertDesc`). -/
def insertAsc (p : ℕ → ℚ) (i : ℕ) : List ℕ → List ℕ
  | [] => [i]
  | j :: rest =>
    if p i < p j ∨ (p i = p j ∧ i < j) then i :: j :: rest
    else j :: insertAsc p i rest

/-- The ascending argsort of the priority scores.  In
`final_aed_allocation`, `np.argsort(priority_scores)` is a pandas
Series keeping the original row labels, the `[::-1]` slice reverses
row positions but keeps those labels, and the remainder loop's
`priority_indices[i % len(...)]` is label-based Series indexing: the
lookup at label `k` returns the ascending argsort's entry `k`, so the
reversal is semantically dead there and the loop walks subzones in
ascending priority order. -/
def argsortAsc (ps : List ℚ) : List ℕ :=
  (List.range ps.length).foldr (insertAsc fun i => ps.getD i 0) []

/-- The proportional extras of `final_aed_allocation` (lines 92-100):
`int(remaining_aeds * (priority_scores[i] / priority_sum))` when
`priority_sum > 0`, else `0`. -/
def proportionalExtras (ps : List ℚ) (remaining : ℤ) : List ℤ :=
  ps.map fun p =>
    if 0 < ps.sum then pyInt ((remaining : ℚ) * (p / ps.sum)) else 0

/-- `base_allocation[m] += 1` on a vector. -/
def bumpAt (b : List ℤ) (m : ℕ) : List ℤ := b.set m (b.getD m 0 + 1)

/-- The remainder loop of `final_aed_allocation` (lines 113-116):
`for i in range(remaining): base_allocation[priority_indices[i % len]] += 1`,
where `priority_indices[i % len]` is the label-based Series lookup
described at `argsortAsc`, so `idx` is instantiated with the ascending
argsort. -/
def addRemLoop (idx : List ℕ) : ℕ → ℕ → List ℤ → List ℤ
  | 0, _, b => b
  | k + 1, i, b => addRemLoop idx k (i + 1) (bumpAt b (idx.getD (i % idx.length) 0))

/-- `final_aed_allocation(subzone_data)` restricted to its allocation
logic: 1 unit per subzone, proportional extras by truncation, then the
remainder cycled over subzones — in ascending priority order, because
the label-based lookup `priority_indices[i % len]` cancels the
Series reversal (see `argsortAsc`). -/
def finalAedAllocation (ps : List ℚ) (B : ℤ) : List ℤ :=
  let n := ps.length
  let base := List.replicate n (1 : ℤ)
  let alloc := List.zipWith (· + ·) base (proportionalExtras ps (B - (n : ℤ)))
  let rem2 := B - alloc.sum
  if 0 < rem2 then addRemLoop (argsortAsc ps) rem2.toNat 0 alloc else alloc

/-- Per-tier extra cap of `balanced_aed_allocation` (lines 71-77):
rank in the top 20% of subzones gets up to 5 extra units, top 50% up
to 3, the rest up to 1.  The float thresholds `n * 0.2` and `n * 0.5`
are embedded as the exact rationals `n / 5` and `n / 2`. -/
def tierCap (n rank : ℕ) : ℤ :=
  if (rank : ℚ) ≤ (n : ℚ) * (1 / 5) then 5
  else if (rank : ℚ) ≤ (n : ℚ) * (1 / 2) then 3
  else 1

/-- The single distribution pass of `balanced_aed_allocation`
(lines 65-80): one tier-capped extra per subzone in descending
priority order, stopping when the remainder is exhausted.  Note that
the pass is never repeated. -/
def balancedLoop (n : ℕ) : List ℕ → ℕ → ℤ → List ℤ → List ℤ
  | [], _, _, b => b
  | j :: rest, i, rem, b =>
    if rem ≤ 0 then b
    else
      let extra := min rem (tierCap n (i + 1))
      balancedLoop n rest (i + 1) (rem - extra) (b.set j (b.getD j 0 + extra))

/-- `balanced_aed_allocation(subzone_data)` restricted to its
allocation logic: 1 unit per subzone, then one tier-capped pass over
the subzones in descending priority order. -/
def balancedAedAllocation (ps : List ℚ) (B : ℤ) : List ℤ :=
  let n := ps.length
  let base := List.replicate n (1 : ℤ)
  let rem := B - (n : ℤ)
  if 0 < rem then balancedLoop n (argsortDesc ps) 0 rem base else base

/-! ### Coverage matrix and MILP deployment
Embedding of `create_coverage_matrix` and
`area_weighted_multi_cover_deployment`
(src/code/real_aed_optimization_with_area.py).  The geodesic distance
library call is abstracted as a rational-valued function `dist`; no
property of it other than those stated in the theorems is used. -/

/-- `create_coverage_matrix(subzone_data, coverage_radius)`
(lines 36-60): an `n × n` matrix initialised to zero, with entry
`(i, j)` set to `1` exactly when `i != j` and the pairwise distance is
at most the radius.  Entries outside the `n × n` range stay `0`. -/
def createCoverageMatrix (dist : ℕ → ℕ → ℚ) (radius : ℚ) (n : ℕ) (i j : ℕ) : ℤ :=
  if i < n ∧ j < n ∧ i ≠ j ∧ dist i j ≤ radius then 1 else 0

/-- `area_weighted_multi_cover_deployment` (lines 62-119) with the
blocking `prob.solve()` call modelled by its outcome: `solverStatus`
(`1` = optimal) and the solved variable valuation `solverX`.  On
status `1` the deployment vector and the coverage effects are
extracted and returned; on any other status the function returns
`(None, None)`, embedded as `none` — no fallback is invoked. -/
def areaWeightedMultiCoverDeployment (coverage : ℕ → ℕ → ℤ)
    (riskScores areaWeights : ℕ → ℚ) (n : ℕ)
    (solverStatus : ℤ) (solverX : ℕ → ℤ) : Option (List ℤ × List ℚ) :=
  if solverStatus = 1 then
    some ((List.range n).map solverX,
      (List.range n).map fun i =>
        ((((List.range n).filter fun j => coverage i j == 1).map solverX).sum : ℚ) *
          riskScores i * areaWeights i)
  else none

/-! ### Risk-score normalization
Embedding of the min-max normalization
`(score - score.min()) / (score.max() - score.min())` used at
src/code/aed_balanced_simple.py line 30 and
src/code/risk_model_paper_aligned.py lines 252-254.  When the
denominator is zero every numerator is also zero, and the float
division `0.0 / 0.0` yields NaN; that NaN is modelled as `none`. -/

/-- `Series.min()` of a nonempty column (`0` for the empty column,
which no claim exercises). -/
def seriesMin : List ℚ → ℚ
  | [] => 0
  | h :: t => t.foldl min h

/-- `Series.max()` of a nonempty column. -/
def seriesMax : List ℚ → ℚ
  | [] => 0
  | h :: t => t.foldl max h

/-- Elementwise min-max normalization; `none` models the NaN produced
by the float division when `max - min = 0`. -/
def normalizeRiskScores (xs : List ℚ) : List (Option ℚ) :=
  xs.map fun x =>
    if seriesMax xs - seriesMin xs = 0 then none
    else some ((x - seriesMin xs) / (seriesMax xs - seriesMin xs))

/-! ### Feature preparation
Embedding of the missing-column handling of
`PaperAlignedRiskModel.prepare_features`
(src/code/risk_model_paper_aligned.py, lines 142-155) and of the
column selection `data[features]` in `load_and_prepare_data`
(src/code/optimized_risk_model_with_area.py, lines 24-33).  A
dataframe is modelled by its column-name list `cols` and a valuation
`colVal` of the present columns. -/

/-- The required feature columns of the paper-aligned model
(line 142). -/
def featureColumns : List String :=
  ["P_i", "E_i", "L_i", "H_i", "HDB_i", "V_i", "ED_i", "RE_i", "TM_i", "MI_i"]

/-- The missing-column branch of `prepare_features`: each required
column absent from the dataframe is filled with the constant `0`
column and processing continues; the function is total and never
raises. -/
def prepareFeatureTable (cols : List String) (colVal : String → List ℚ)
    (nrows : ℕ) : List (String × List ℚ) :=
  featureColumns.map fun c =>
    (c, if c ∈ cols then colVal c else List.replicate nrows 0)

/-- The required feature columns of the area-weighted model
(lines 24-28). -/
def areaFeatureColumns : List String :=
  ["Total_Total", "volunteers_count", "hdb_ratio", "elderly_ratio",
   "low_income_ratio", "AED_count", "area_weight"]

/-- `X = data[features].copy()` of `load_and_prepare_data`: pandas
raises a `KeyError` when any requested column is absent, modelled as
`none`; otherwise the selected columns are returned. -/
def loadAndPrepareFeaturesArea (cols : List String)
    (colVal : String → List ℚ) : Option (List (String × List ℚ)) :=
  if ∀ c ∈ areaFeatureColumns, c ∈ cols then
    some (areaFeatureColumns.map fun c => (c, colVal c))
  else none

/-! ### Responder assignment programs
Embedding of `optimize_volunteer_assignment` in
src/code/volunteer_analysis_latest.py (lines 92-151, the variant with
both capacity constraints) and in
src/code/optimized_volunteer_assignment_simple.py (lines 101-197, the
simplified variant).  The sparse distance matrix maps a pair to
`none` for `np.inf` (out of radius or unavailable responder).  The
binary decision variables returned by the solver are a Boolean
valuation `x`; the feasibility predicates below are exactly the
constraint systems the two variants post, and the extracted
assignment set consists of the pairs with finite distance and
`x.value() == 1`. -/

/-- A pair is within the sparse domain iff its matrix entry is not
`np.inf`. -/
def finiteD (d : ℕ → ℕ → Option ℚ) (i j : ℕ) : Bool := (d i j).isSome

/-- Number of subzones the extracted assignment gives responder `j`:
the pairs `(i, j)` with finite distance and `x i j` set. -/
def volCount (nS : ℕ) (d : ℕ → ℕ → Option ℚ) (x : ℕ → ℕ → Bool) (j : ℕ) : ℕ :=
  ((List.range nS).filter fun i => finiteD d i j && x i j).length

/-- Number of responders the extracted assignment gives subzone `i`. -/
def subCount (nV : ℕ) (d : ℕ → ℕ → Option ℚ) (x : ℕ → ℕ → Bool) (i : ℕ) : ℕ :=
  ((List.range nV).filter fun j => finiteD d i j && x i j).length

/-- The constraint system posted by the `volunteer_analysis_latest`
variant (lines 116-124): at most one subzone per volunteer and at most
3 volunteers per subzone, each sum ranging over the finite-distance
pairs. -/
abbrev feasibleLatest (nS nV : ℕ) (d : ℕ → ℕ → Option ℚ) (x : ℕ → ℕ → Bool) : Prop :=
  (∀ j < nV, volCount nS d x j ≤ 1) ∧ (∀ i < nS, subCount nV d x i ≤ 3)

/-- The constraint system posted by the simplified variant
(lines 140-147): at most one subzone per available volunteer having at
least one finite-distance pair.  No per-subzone constraint is posted;
the loop at lines 149-162 only counts high-priority subzones and adds
nothing to the program. -/
abbrev feasibleSimple (nS nV : ℕ) (d : ℕ → ℕ → Option ℚ) (avail : ℕ → ℤ)
    (x : ℕ → ℕ → Bool) : Prop :=
  ∀ j < nV, avail j = 1 → (∃ i < nS, finiteD d i j = true) →
    volCount nS d x j ≤ 1

/-- `create_distance_matrix` (both variants, identical code): entry
`(i, j)` is the distance when volunteer `j` is available and the
distance is within `maxD`, else `np.inf` (`none`). -/
def createDistanceMatrix (distF : ℕ → ℕ → ℚ) (avail : ℕ → ℤ) (maxD : ℚ) :
    ℕ → ℕ → Option ℚ :=
  fun i j => if avail j = 1 ∧ distF i j ≤ maxD then some (distF i j) else none

/-! ### Helper lemmas about the allocation embedding -/

theorem getD_mem {α : Type} {l : List α} {m : ℕ} {d : α} (h : m < l.length) :
    l.getD m d ∈ l := by
  induction l generalizing m with
  | nil => simp at h
  | cons a t ih =>
    cases m with
    | zero => simp
    | succ m =>
      have hmem := ih (m := m) (by simpa using h)
      exact List.mem_cons_of_mem a hmem

theorem insertDesc_perm (p : ℕ → ℚ) (i : ℕ) :
    ∀ l : List ℕ, (insertDesc p i l).Perm (i :: l)
  | [] => .refl _
  | j :: rest => by
    unfold insertDesc
    split
    · exact .refl _
    · exact ((insertDesc_perm p i rest).cons j).trans (List.Perm.swap i j rest)

theorem foldr_insertDesc_perm (p : ℕ → ℚ) :
    ∀ l acc : List ℕ, (l.foldr (insertDesc p) acc).Perm (l ++ acc)
  | [], _ => .refl _
  | a :: l, acc => (insertDesc_perm p a _).trans ((foldr_insertDesc_perm p l acc).cons a)

theorem argsortDesc_perm (ps : List ℚ) :
    (argsortDesc ps).Perm (List.range ps.length) := by
  simpa [argsortDesc] using
    foldr_insertDesc_perm (fun i => ps.getD i 0) (List.range ps.length) []

theorem argsortDesc_length (ps : List ℚ) : (argsortDesc ps).length = ps.length := by
  simpa using (argsortDesc_perm ps).length_eq

theorem mem_argsortDesc_lt {ps : List ℚ} {m : ℕ} (h : m ∈ argsortDesc ps) :
    m < ps.length := by
  simpa using (argsortDesc_perm ps).mem_iff.mp h

theorem insertAsc_perm (p : ℕ → ℚ) (i : ℕ) :
    ∀ l : List ℕ, (insertAsc p i l).Perm (i :: l)
  | [] => .refl _
  | j :: rest => by
    unfold insertAsc
    split
    · exact .refl _
    · exact ((insertAsc_perm p i rest).cons j).trans (List.Perm.swap i j rest)

theorem foldr_insertAsc_perm (p : ℕ → ℚ) :
    ∀ l acc : List ℕ, (l.foldr (insertAsc p) acc).Perm (l ++ acc)
  | [], _ => .refl _
  | a :: l, acc => (insertAsc_perm p a _).trans ((foldr_insertAsc_perm p l acc).cons a)

theorem argsortAsc_perm (ps : List ℚ) :
    (argsortAsc ps).Perm (List.range ps.length) := by
  simpa [argsortAsc] using
    foldr_insertAsc_perm (fun i => ps.getD i 0) (List.range ps.length) []

theorem argsortAsc_length (ps : List ℚ) : (argsortAsc ps).length = ps.length := by
  simpa using (argsortAsc_perm ps).length_eq

theorem mem_argsortAsc_lt {ps : List ℚ} {m : ℕ} (h : m ∈ argsortAsc ps) :
    m < ps.length := by
  simpa using (argsortAsc_perm ps).mem_iff.mp h

theorem bumpAt_length (b : List ℤ) (m : ℕ) : (bumpAt b m).length = b.length := by
  simp [bumpAt]

theorem bumpAt_sum {b : List ℤ} {m : ℕ} (h : m < b.length) :
    (bumpAt b m).sum = b.sum + 1 := by
  induction b generalizing m with
  | nil => simp at h
  | cons a t ih =>
    cases m with
    | zero => simp [bumpAt]; ring
    | succ m =>
      have hm : m < t.length := by simpa using h
      show (a :: bumpAt t m).sum = (a :: t).sum + 1
      simp [ih hm]; ring

theorem set_add_nonneg {b : List ℤ} (hb : ∀ x ∈ b, 0 ≤ x) (j : ℕ) {e : ℤ}
    (he : 0 ≤ e) : ∀ x ∈ b.set j (b.getD j 0 + e), 0 ≤ x := by
  intro x hx
  rcases List.mem_or_eq_of_mem_set hx with h | h
  · exact hb x h
  · subst h
    by_cases hj : j < b.length
    · have hmem : b.getD j 0 ∈ b := getD_mem (d := 0) hj
      have := hb _ hmem
      omega
    · rw [List.getD_eq_default _ _ (le_of_not_lt hj)]
      omega

theorem addRemLoop_length (idx : List ℕ) (k i : ℕ) (b : List ℤ) :
    (addRemLoop idx k i b).length = b.length := by
  induction k generalizing i b with
  | zero => rfl
  | succ k ih => simp [addRemLoop, ih, bumpAt_length]

theorem addRemLoop_sum (idx : List ℕ) (hne : idx ≠ []) (k i : ℕ) (b : List ℤ)
    (hmem : ∀ m ∈ idx, m < b.length) :
    (addRemLoop idx k i b).sum = b.sum + k := by
  induction k generalizing i b with
  | zero => simp [addRemLoop]
  | succ k ih =>
    have hlen : 0 < idx.length := List.length_pos.mpr hne
    have hmod : i % idx.length < idx.length := Nat.mod_lt _ hlen
    have hblt : idx.getD (i % idx.length) 0 < b.length := hmem _ (getD_mem hmod)
    have h2 : ∀ m ∈ idx, m < (bumpAt b (idx.getD (i % idx.length) 0)).length := by
      simpa [bumpAt_length] using hmem
    simp only [addRemLoop]
    rw [ih _ _ h2, bumpAt_sum hblt]
    push_cast
    ring

theorem addRemLoop_nonneg (idx : List ℕ) (k i : ℕ) (b : List ℤ)
    (hb : ∀ x ∈ b, 0 ≤ x) : ∀ x ∈ addRemLoop idx k i b, 0 ≤ x := by
  induction k generalizing i b with
  | zero => exact hb
  | succ k ih =>
    simp only [addRemLoop]
    exact ih _ _ (set_add_nonneg hb _ (by norm_num))

theorem sum_zipWith_add :
    ∀ a b : List ℤ, a.length = b.length →
      (List.zipWith (· + ·) a b).sum = a.sum + b.sum
  | [], [], _ => by simp
  | [], _ :: _, h => by simp at h
  | _ :: _, [], h => by simp at h
  | x :: a, y :: b, h => by
    simp only [List.zipWith, List.sum_cons]
    rw [sum_zipWith_add a b (by simpa using h)]
    ring

theorem mem_zipWith_add_nonneg :
    ∀ a b : List ℤ, (∀ x ∈ a, 0 ≤ x) → (∀ y ∈ b, 0 ≤ y) →
      ∀ z ∈ List.zipWith (· + ·) a b, 0 ≤ z
  | [], _, _, _ => by simp
  | _ :: _, [], _, _ => by simp
  | x :: a, y :: b, ha, hb => by
    intro z hz
    simp only [List.zipWith, List.mem_cons] at hz
    rcases hz with rfl | hz
    · have h1 := ha x (by simp)
      have h2 := hb y (by simp)
      omega
    · exact mem_zipWith_add_nonneg a b (fun u hu => ha u (by simp [hu]))
        (fun v hv => hb v (by simp [hv])) z hz

theorem pyInt_nonneg {q : ℚ} (h : 0 ≤ q) : 0 ≤ pyInt q := by
  simp only [pyInt, if_neg (not_lt.mpr h)]
  exact Int.floor_nonneg.mpr h

theorem pyInt_cast_le {q : ℚ} (h : 0 ≤ q) : (pyInt q : ℚ) ≤ q := by
  simp only [pyInt, if_neg (not_lt.mpr h)]
  exact Int.floor_le q

theorem proportionalExtras_length (ps : List ℚ) (R : ℤ) :
    (proportionalExtras ps R).length = ps.length := by
  simp [proportionalExtras]

theorem proportionalExtras_nonneg {ps : List ℚ} {R : ℤ}
    (hp : ∀ p ∈ ps, 0 ≤ p) (hR : 0 ≤ R) :
    ∀ e ∈ proportionalExtras ps R, 0 ≤ e := by
  intro e he
  simp only [proportionalExtras, List.mem_map] at he
  obtain ⟨p, hpmem, rfl⟩ := he
  split
  case isTrue hs =>
    exact pyInt_nonneg (mul_nonneg (by exact_mod_cast hR)
      (div_nonneg (hp p hpmem) hs.le))
  case isFalse hs => exact le_refl 0

theorem cast_sum_map {α : Type} (f : α → ℤ) :
    ∀ l : List α, (((l.map f).sum : ℤ) : ℚ) = (l.map fun a => ((f a : ℤ) : ℚ)).sum
  | [] => by simp
  | a :: t => by
    simp only [List.map_cons, List.sum_cons, Int.cast_add]
    rw [cast_sum_map f t]

theorem sum_map_mul_left_rat (c : ℚ) :
    ∀ l : List ℚ, (l.map fun p => c * p).sum = c * l.sum
  | [] => by simp
  | a :: t => by
    simp only [List.map_cons, List.sum_cons, sum_map_mul_left_rat c t]
    ring

theorem proportionalExtras_sum_le {ps : List ℚ} {R : ℤ}
    (hp : ∀ p ∈ ps, 0 ≤ p) (hR : 0 ≤ R) :
    (proportionalExtras ps R).sum ≤ R := by
  by_cases hs : 0 < ps.sum
  case neg =>
    have hz : proportionalExtras ps R = ps.map fun _ => (0 : ℤ) := by
      simp [proportionalExtras, hs]
    rw [hz]
    have : (ps.map fun _ => (0 : ℤ)).sum = 0 := by simp
    omega
  case pos =>
    have hrw : (proportionalExtras ps R).sum =
        (ps.map fun p =>
          (if 0 < ps.sum then pyInt ((R : ℚ) * (p / ps.sum)) else 0 : ℤ)).sum := rfl
    have hcast : (((ps.map fun p =>
        (if 0 < ps.sum then pyInt ((R : ℚ) * (p / ps.sum)) else 0 : ℤ)).sum : ℤ) : ℚ) ≤
        (R : ℚ) := by
      rw [cast_sum_map]
      have hle : (ps.map fun p =>
          ((if 0 < ps.sum then pyInt ((R : ℚ) * (p / ps.sum)) else 0 : ℤ) : ℚ)).sum ≤
          (ps.map fun p => (R : ℚ) / ps.sum * p).sum := by
        apply List.sum_le_sum
        intro p hpm
        simp only [if_pos hs]
        calc ((pyInt ((R : ℚ) * (p / ps.sum)) : ℤ) : ℚ)
            ≤ (R : ℚ) * (p / ps.sum) :=
              pyInt_cast_le (mul_nonneg (by exact_mod_cast hR)
                (div_nonneg (hp p hpm) hs.le))
          _ = (R : ℚ) / ps.sum * p := by ring
      refine hle.trans ?_
      rw [sum_map_mul_left_rat, div_mul_cancel₀ _ hs.ne']
    rw [hrw]
    exact_mod_cast hcast

theorem finalAedAllocation_length (ps : List ℚ) (B : ℤ) :
    (finalAedAllocation ps B).length = ps.length := by
  simp only [finalAedAllocation]
  split
  · rw [addRemLoop_length]
    simp [proportionalExtras_length]
  · simp [proportionalExtras_length]

theorem finalAedAllocation_sum {ps : List ℚ} {B : ℤ} (hn : ps ≠ [])
    (hB : (ps.length : ℤ) ≤ B) (hp : ∀ p ∈ ps, 0 ≤ p) :
    (finalAedAllocation ps B).sum = B := by
  have hR : (0 : ℤ) ≤ B - ps.length := by omega
  have hlenE : (proportionalExtras ps (B - ps.length)).length = ps.length :=
    proportionalExtras_length ps _
  have halloc : (List.zipWith (· + ·) (List.replicate ps.length (1 : ℤ))
      (proportionalExtras ps (B - ps.length))).sum =
      (ps.length : ℤ) + (proportionalExtras ps (B - ps.length)).sum := by
    rw [sum_zipWith_add _ _ (by simp [hlenE])]
    simp [List.sum_replicate]
  have hEsum : (proportionalExtras ps (B - ps.length)).sum ≤ B - ps.length :=
    proportionalExtras_sum_le hp hR
  have hlenA : (List.zipWith (· + ·) (List.replicate ps.length (1 : ℤ))
      (proportionalExtras ps (B - ps.length))).length = ps.length := by
    simp [hlenE]
  simp only [finalAedAllocation]
  split
  case isTrue hpos =>
    rw [addRemLoop_sum]
    · omega
    · intro hcontra
      have := argsortAsc_length ps
      rw [hcontra] at this
      simp at this
      exact hn (List.length_eq_zero.mp this.symm)
    · intro m hm
      rw [hlenA]
      exact mem_argsortAsc_lt hm
  case isFalse hneg => omega

theorem finalAedAllocation_nonneg {ps : List ℚ} {B : ℤ}
    (hB : (ps.length : ℤ) ≤ B) (hp : ∀ p ∈ ps, 0 ≤ p) :
    ∀ x ∈ finalAedAllocation ps B, 0 ≤ x := by
  have hR : (0 : ℤ) ≤ B - ps.length := by omega
  have halloc : ∀ z ∈ List.zipWith (· + ·) (List.replicate ps.length (1 : ℤ))
      (proportionalExtras ps (B - ps.length)), 0 ≤ z :=
    mem_zipWith_add_nonneg _ _
      (fun y hy => by have := List.eq_of_mem_replicate hy; omega)
      (proportionalExtras_nonneg hp hR)
  intro x hx
  simp only [finalAedAllocation] at hx
  split at hx
  · exact addRemLoop_nonneg _ _ _ _ halloc x hx
  · exact halloc x hx

theorem tierCap_pos (n rank : ℕ) : 1 ≤ tierCap n rank := by
  unfold tierCap
  split
  · norm_num
  · split <;> norm_num

theorem balancedLoop_nonneg (n : ℕ) :
    ∀ (l : List ℕ) (i : ℕ) (rem : ℤ) (b : List ℤ), (∀ x ∈ b, 0 ≤ x) →
      ∀ x ∈ balancedLoop n l i rem b, 0 ≤ x
  | [], _, _, _, hb => hb
  | j :: rest, i, rem, b, hb => by
    simp only [balancedLoop]
    split
    · exact hb
    case isFalse hrem =>
      intro x hx
      refine balancedLoop_nonneg n rest (i + 1) _ _ ?_ x hx
      apply set_add_nonneg hb
      have hc := tierCap_pos n (i + 1)
      have : (1 : ℤ) ≤ min rem (tierCap n (i + 1)) := le_min (by omega) hc
      omega

theorem balancedAedAllocation_nonneg (ps : List ℚ) (B : ℤ) :
    ∀ x ∈ balancedAedAllocation ps B, 0 ≤ x := by
  have hbase : ∀ x ∈ List.replicate ps.length (1 : ℤ), 0 ≤ x := by
    intro x hx
    have := List.eq_of_mem_replicate hx
    omega
  intro x hx
  simp only [balancedAedAllocation] at hx
  split at hx
  · exact balancedLoop_nonneg _ _ _ _ _ hbase x hx
  · exact hbase x hx

/-! ### Helper lemmas about the normalization embedding -/

theorem foldl_min_le_init : ∀ (t : List ℚ) (a : ℚ), t.foldl min a ≤ a
  | [], a => le_refl a
  | h :: t, a => le_trans (foldl_min_le_init t (min a h)) (min_le_left a h)

theorem foldl_min_le_mem : ∀ (t : List ℚ) (a x : ℚ), x ∈ t → t.foldl min a ≤ x
  | [], _, _, hx => absurd hx (List.not_mem_nil _)
  | h :: t, a, x, hx => by
    rcases List.mem_cons.mp hx with rfl | hx
    · exact le_trans (foldl_min_le_init t (min a x)) (min_le_right a x)
    · exact foldl_min_le_mem t (min a h) x hx

theorem foldl_min_mem_or :
    ∀ (t : List ℚ) (a : ℚ), t.foldl min a = a ∨ t.foldl min a ∈ t
  | [], _ => Or.inl rfl
  | h :: t, a => by
    rcases foldl_min_mem_or t (min a h) with heq | hmem
    · rcases min_choice a h with hc | hc
      · exact Or.inl (by rw [List.foldl_cons, heq, hc])
      · refine Or.inr ?_
        rw [List.foldl_cons, heq, hc]
        exact List.mem_cons_self h t
    · exact Or.inr (List.mem_cons_of_mem h (by simpa using hmem))

theorem foldl_max_init_le : ∀ (t : List ℚ) (a : ℚ), a ≤ t.foldl max a
  | [], a => le_refl a
  | h :: t, a => le_trans (le_max_left a h) (foldl_max_init_le t (max a h))

theorem foldl_max_mem_le : ∀ (t : List ℚ) (a x : ℚ), x ∈ t → x ≤ t.foldl max a
  | [], _, _, hx => absurd hx (List.not_mem_nil _)
  | h :: t, a, x, hx => by
    rcases List.mem_cons.mp hx with rfl | hx
    · exact le_trans (le_max_right a x) (foldl_max_init_le t (max a x))
    · exact foldl_max_mem_le t (max a h) x hx

theorem foldl_max_mem_or :
    ∀ (t : List ℚ) (a : ℚ), t.foldl max a = a ∨ t.foldl max a ∈ t
  | [], _ => Or.inl rfl
  | h :: t, a => by
    rcases foldl_max_mem_or t (max a h) with heq | hmem
    · rcases max_choice a h with hc | hc
      · exact Or.inl (by rw [List.foldl_cons, heq, hc])
      · refine Or.inr ?_
        rw [List.foldl_cons, heq, hc]
        exact List.mem_cons_self h t
    · exact Or.inr (List.mem_cons_of_mem h (by simpa using hmem))

theorem seriesMin_le {xs : List ℚ} {x : ℚ} (hx : x ∈ xs) : seriesMin xs ≤ x := by
  cases xs with
  | nil => cases hx
  | cons h t =>
    rcases List.mem_cons.mp hx with rfl | hx
    · exact foldl_min_le_init t x
    · exact foldl_min_le_mem t h x hx

theorem le_seriesMax {xs : List ℚ} {x : ℚ} (hx : x ∈ xs) : x ≤ seriesMax xs := by
  cases xs with
  | nil => cases hx
  | cons h t =>
    rcases List.mem_cons.mp hx with rfl | hx
    · exact foldl_max_init_le t x
    · exact foldl_max_mem_le t h x hx

theorem seriesMin_mem {xs : List ℚ} (hne : xs ≠ []) : seriesMin xs ∈ xs := by
  cases xs with
  | nil => exact absurd rfl hne
  | cons h t =>
    show t.foldl min h ∈ h :: t
    rcases foldl_min_mem_or t h with heq | hmem
    · rw [heq]; exact List.mem_cons_self h t
    · exact List.mem_cons_of_mem h hmem

theorem seriesMax_mem {xs : List ℚ} (hne : xs ≠ []) : seriesMax xs ∈ xs := by
  cases xs with
  | nil => exact absurd rfl hne
  | cons h t =>
    show t.foldl max h ∈ h :: t
    rcases foldl_max_mem_or t h with heq | hmem
    · rw [heq]; exact List.mem_cons_self h t
    · exact List.mem_cons_of_mem h hmem

/-! ### Helper lemmas about the assignment embedding -/

theorem volCount_eq_zero {nS : ℕ} {d : ℕ → ℕ → Option ℚ} {x : ℕ → ℕ → Bool} {j : ℕ}
    (h : ∀ i < nS, finiteD d i j = false) : volCount nS d x j = 0 := by
  unfold volCount
  rw [List.length_eq_zero, List.filter_eq_nil_iff]
  intro i hi
  simp [h i (List.mem_range.mp hi)]

/-! ### The claims -/

/-- C1.  The claim asserts that both fallback variants return
non-negative vectors summing exactly to the budget `B` whenever
`B` is at least the subzone count.  This is refuted by the tiered
variant `balanced_aed_allocation` on one subzone with budget 10: its
single tier-capped distribution pass hands out at most 1 extra unit
(the subzone is outside the top-20% and top-50% tiers) and the loop
ends with 8 units never allocated, returning `[2]` with sum `2 ≠ 10`. -/
theorem balanced_variant_underallocates :
    balancedAedAllocation [1] 10 = [2] ∧ (balancedAedAllocation [1] 10).sum ≠ 10 := by
  have h : balancedAedAllocation [1] 10 = [2] := by
    norm_num [balancedAedAllocation, balancedLoop, tierCap, argsortDesc, insertDesc,
      List.range_succ, List.getD, List.set, List.replicate]
  refine ⟨h, ?_⟩
  rw [h]
  decide

/-- C1 (amended).  The proportional variant `final_aed_allocation`
does satisfy the claim: for a nonempty subzone list, any budget `B` at
least the subzone count and non-negative priority scores (they are
products of normalized scores in the source), the returned vector has
one entry per subzone, all entries non-negative, and sums to `B`
exactly — including the all-zero degenerate case.  The tiered variant
`balanced_aed_allocation` only guarantees non-negative entries; its
sum can fall short of `B`. -/
theorem fallback_budget_exhaustion :
    (∀ (ps : List ℚ) (B : ℤ), ps ≠ [] → (ps.length : ℤ) ≤ B → (∀ p ∈ ps, 0 ≤ p) →
      (finalAedAllocation ps B).length = ps.length ∧
      (finalAedAllocation ps B).sum = B ∧
      ∀ x ∈ finalAedAllocation ps B, 0 ≤ x) ∧
    (∀ (ps : List ℚ) (B : ℤ), ∀ x ∈ balancedAedAllocation ps B, 0 ≤ x) :=
  ⟨fun ps B hn hB hp =>
    ⟨finalAedAllocation_length ps B, finalAedAllocation_sum hn hB hp,
     finalAedAllocation_nonneg hB hp⟩,
   balancedAedAllocation_nonneg⟩

/-- C1 witness: the amended theorem applied to the all-zero degenerate
one-subzone instance with budget 2 and to the tiered variant. -/
theorem fallback_budget_exhaustion_witness :
    (finalAedAllocation [0] 2).sum = 2 ∧
    ∀ x ∈ balancedAedAllocation [0] 7, 0 ≤ x :=
  ⟨(fallback_budget_exhaustion.1 [0] 2 (by decide) (by decide) (by decide)).2.1,
   fallback_budget_exhaustion.2 [0] 7⟩

/-- C2.  On Scenario A (priorities `[0.1, 0.5, 0.9]`, budget 6) the
fallback returns `[2, 2, 2]`, not the `[1, 1, 4]` the claim states:
the truncated proportional extras are `[0, 1, 1]` (giving `[1, 2, 2]`)
and the single leftover unit goes to subzone 0 — the label-based
lookup `priority_indices[0]` reads the ascending argsort's first
entry, the lowest-priority subzone, not the highest-priority one the
claim's documented tie-break describes. -/
theorem scenarioA_not_114 :
    finalAedAllocation [(1 : ℚ) / 10, 1 / 2, 9 / 10] 6 = [2, 2, 2] ∧
    finalAedAllocation [(1 : ℚ) / 10, 1 / 2, 9 / 10] 6 ≠ [1, 1, 4] := by
  have h : finalAedAllocation [(1 : ℚ) / 10, 1 / 2, 9 / 10] 6 = [2, 2, 2] := by
    norm_num [finalAedAllocation, proportionalExtras, argsortAsc, insertAsc,
      addRemLoop, bumpAt, pyInt, List.range_succ, List.zipWith, List.replicate,
      List.getD, List.set]
  refine ⟨h, ?_⟩
  rw [h]
  decide

/-- C2 (amended).  On Scenario A the deterministic fallback returns
exactly `[2, 2, 2]`: base `[1, 1, 1]`, proportional extras by integer
truncation `[0, 1, 1]`, and the one remaining unit to subzone 0,
since the remainder loop's label-based Series lookup walks subzones
in ascending priority order. -/
theorem scenarioA_allocation :
    finalAedAllocation [(1 : ℚ) / 10, 1 / 2, 9 / 10] 6 = [2, 2, 2] := by
  norm_num [finalAedAllocation, proportionalExtras, argsortAsc, insertAsc,
    addRemLoop, bumpAt, pyInt, List.range_succ, List.zipWith, List.replicate,
    List.getD, List.set]

/-- C3.  The claim asserts `coverage(i, i)` is true for every subzone.
It is false: `create_coverage_matrix` guards every assignment with
`if i != j`, so the diagonal of the zero-initialised matrix is never
set.  Concretely, with one subzone at distance 0 from itself and
radius 200 the diagonal entry is `0`, not `1`. -/
theorem self_coverage_false_at_zero :
    createCoverageMatrix (fun _ _ => 0) 200 1 0 0 = 0 ∧
    createCoverageMatrix (fun _ _ => 0) 200 1 0 0 ≠ 1 := by
  constructor <;> simp [createCoverageMatrix]

/-- C3 (amended).  The diagonal entry `coverage(i, i)` is `0` (false)
for every subzone, every distance function and every radius: the
`i != j` guard excludes self-coverage. -/
theorem coverage_diagonal_zero (dist : ℕ → ℕ → ℚ) (radius : ℚ) (n i : ℕ) :
    createCoverageMatrix dist radius n i i = 0 := by
  simp [createCoverageMatrix]

/-- C4.  The claim asserts the per-subzone cap `Σ_j x_{i,j} ≤ 3` for
both assignment variants.  The simplified variant posts no such
constraint: with one subzone and four available volunteers all within
radius, assigning all four satisfies every posted constraint of the
simplified program (each volunteer is used once), yet the subzone
receives 4 > 3 responders — and, the objective weights being positive,
exactly such assignments are the maximizing ones. -/
theorem simple_variant_exceeds_capacity :
    feasibleSimple 1 4 (createDistanceMatrix (fun _ _ => 1) (fun _ => 1) 1000)
      (fun _ => 1) (fun _ _ => true) ∧
    subCount 4 (createDistanceMatrix (fun _ _ => 1) (fun _ => 1) 1000)
      (fun _ _ => true) 0 = 4 := by
  constructor
  · decide
  · decide

/-- C4 (amended).  The per-subzone capacity `Σ_j x_{i,j} ≤ 3` holds
for every solution satisfying the constraint system posted by the
`volunteer_analysis_latest` variant; the simplified variant posts no
per-subzone constraint and admits solutions exceeding the cap. -/
theorem latest_variant_subzone_capacity (nS nV : ℕ) (d : ℕ → ℕ → Option ℚ)
    (x : ℕ → ℕ → Bool) (hfeas : feasibleLatest nS nV d x) :
    ∀ i < nS, subCount nV d x i ≤ 3 :=
  hfeas.2

/-- C4 witness: the amended theorem at a concrete feasible solution. -/
theorem latest_variant_subzone_capacity_witness :
    subCount 1 (fun _ _ => some 1) (fun _ _ => true) 0 ≤ 3 :=
  latest_variant_subzone_capacity 1 1 (fun _ _ => some 1) (fun _ _ => true)
    ⟨by decide, by decide⟩ 0 (by decide)

/-- C5.  The claim asserts that a non-optimal solver status makes the
optimizer substitute the proportional fallback and still return a
valid allocation.  It is false: on any status other than 1 the
function returns `(None, None)` (here `none`) and the caller merely
reports failure — no fallback allocation is produced. -/
theorem solver_failure_returns_nothing :
    areaWeightedMultiCoverDeployment (fun _ _ => 0) (fun _ => 1) (fun _ => 1) 1 0
      (fun _ => 0) = none := by
  rfl

/-- C5 (amended).  On every non-optimal solver status the optimizer
returns `none`: no allocation vector (partial, invalid or fallback) is
handed to the caller. -/
theorem non_optimal_status_yields_none (coverage : ℕ → ℕ → ℤ)
    (riskScores areaWeights : ℕ → ℚ) (n : ℕ) (status : ℤ) (x : ℕ → ℤ)
    (h : status ≠ 1) :
    areaWeightedMultiCoverDeployment coverage riskScores areaWeights n status x =
      none := by
  simp [areaWeightedMultiCoverDeployment, h]

/-- C5 witness: the amended theorem at the infeasible status `-1`. -/
theorem non_optimal_status_yields_none_witness :
    areaWeightedMultiCoverDeployment (fun _ _ => 1) (fun _ => 1) (fun _ => 1) 2
      (-1) (fun _ => 1) = none :=
  non_optimal_status_yields_none _ _ _ 2 (-1) _ (by decide)

/-- C6.  The claim asserts that an all-equal score column normalizes
to constant 0 and never NaN.  It is false: the code divides by
`max - min` with no degenerate-case guard, so on `[2, 2]` every entry
is the float division `0.0 / 0.0`, i.e. NaN (modelled `none`), not 0. -/
theorem degenerate_normalization_nan :
    normalizeRiskScores [2, 2] = [none, none] ∧
    normalizeRiskScores [2, 2] ≠ [some 0, some 0] := by
  have h : normalizeRiskScores [2, 2] = [none, none] := by
    norm_num [normalizeRiskScores, seriesMax, seriesMin]
  refine ⟨h, ?_⟩
  rw [h]
  simp

/-- C6 (amended).  For a nonempty score column: in the degenerate case
(`max - min = 0`) every normalized entry is NaN (`none`), and in the
non-degenerate case every entry is a defined value in `[0, 1]`, with
some entry exactly 0 (the minimum's) and some entry exactly 1 (the
maximum's). -/
theorem normalization_bounds (xs : List ℚ) (hne : xs ≠ []) :
    (seriesMax xs - seriesMin xs = 0 → ∀ y ∈ normalizeRiskScores xs, y = none) ∧
    (seriesMax xs - seriesMin xs ≠ 0 →
      (∀ y ∈ normalizeRiskScores xs, ∃ q, y = some q ∧ 0 ≤ q ∧ q ≤ 1) ∧
      some 0 ∈ normalizeRiskScores xs ∧ some 1 ∈ normalizeRiskScores xs) := by
  constructor
  · intro hdeg y hy
    simp only [normalizeRiskScores, List.mem_map] at hy
    obtain ⟨x, _, rfl⟩ := hy
    simp [hdeg]
  · intro hden
    have hle : seriesMin xs ≤ seriesMax xs := by
      cases xs with
      | nil => exact absurd rfl hne
      | cons h t =>
        exact le_trans (seriesMin_le (List.mem_cons_self h t))
          (le_seriesMax (List.mem_cons_self h t))
    have hpos : 0 < seriesMax xs - seriesMin xs := by
      rcases lt_or_eq_of_le hle with h | h
      · exact sub_pos.mpr h
      · exact absurd (by rw [h]; ring) hden
    refine ⟨?_, ?_, ?_⟩
    · intro y hy
      simp only [normalizeRiskScores, List.mem_map] at hy
      obtain ⟨x, hx, rfl⟩ := hy
      rw [if_neg hden]
      refine ⟨_, rfl, ?_, ?_⟩
      · exact div_nonneg (sub_nonneg.mpr (seriesMin_le hx)) hpos.le
      · rw [div_le_one hpos]
        exact sub_le_sub_right (le_seriesMax hx) _
    · simp only [normalizeRiskScores, List.mem_map]
      exact ⟨seriesMin xs, seriesMin_mem hne, by rw [if_neg hden]; simp⟩
    · simp only [normalizeRiskScores, List.mem_map]
      exact ⟨seriesMax xs, seriesMax_mem hne, by rw [if_neg hden, div_self hden]⟩

/-- C6 witness: the amended theorem at the non-degenerate column
`[1, 3]` and the degenerate column `[2, 2]`. -/
theorem normalization_bounds_witness :
    (some (0 : ℚ) ∈ normalizeRiskScores [1, 3] ∧
      some (1 : ℚ) ∈ normalizeRiskScores [1, 3]) ∧
    ∀ y ∈ normalizeRiskScores [2, 2], y = none :=
  ⟨⟨((normalization_bounds [1, 3] (by decide)).2
      (by norm_num [seriesMax, seriesMin])).2.1,
    ((normalization_bounds [1, 3] (by decide)).2
      (by norm_num [seriesMax, seriesMin])).2.2⟩,
   (normalization_bounds [2, 2] (by decide)).1
     (by norm_num [seriesMax, seriesMin])⟩

/-- C7.  In both assignment variants, every solution of the posted
constraint system assigns each responder to at most one subzone.  In
the `volunteer_analysis_latest` variant the per-volunteer constraint
is posted for every volunteer; in the simplified variant it is posted
only for available volunteers with at least one within-radius pair,
but the distance matrix built by `create_distance_matrix` contains no
finite entry for unavailable volunteers, so the extracted assignment
count is 0 in the remaining cases. -/
theorem responder_assigned_at_most_once :
    (∀ (nS nV : ℕ) (d : ℕ → ℕ → Option ℚ) (x : ℕ → ℕ → Bool),
      feasibleLatest nS nV d x → ∀ j < nV, volCount nS d x j ≤ 1) ∧
    (∀ (nS nV : ℕ) (distF : ℕ → ℕ → ℚ) (avail : ℕ → ℤ) (maxD : ℚ)
      (x : ℕ → ℕ → Bool),
      feasibleSimple nS nV (createDistanceMatrix distF avail maxD) avail x →
      ∀ j < nV, volCount nS (createDistanceMatrix distF avail maxD) x j ≤ 1) := by
  constructor
  · exact fun nS nV d x h => h.1
  · intro nS nV distF avail maxD x hfeas j hj
    by_cases hav : avail j = 1
    · by_cases hex : ∃ i < nS,
        finiteD (createDistanceMatrix distF avail maxD) i j = true
      · exact hfeas j hj hav hex
      · push_neg at hex
        have h0 : volCount nS (createDistanceMatrix distF avail maxD) x j = 0 :=
          volCount_eq_zero fun i hi => by
            simpa using hex i hi
        omega
    · have h0 : volCount nS (createDistanceMatrix distF avail maxD) x j = 0 :=
        volCount_eq_zero fun i _ => by
          simp [finiteD, createDistanceMatrix, hav]
      omega

/-- C7 witness: both parts applied to concrete feasible solutions. -/
theorem responder_assigned_at_most_once_witness :
    volCount 1 (fun _ _ => some 1) (fun _ _ => true) 0 ≤ 1 ∧
    volCount 1 (createDistanceMatrix (fun _ _ => 1) (fun _ => 1) 1000)
      (fun _ _ => true) 0 ≤ 1 :=
  ⟨responder_assigned_at_most_once.1 1 1 (fun _ _ => some 1) (fun _ _ => true)
      ⟨by decide, by decide⟩ 0 (by decide),
   responder_assigned_at_most_once.2 1 1 (fun _ _ => 1) (fun _ => 1) 1000
      (fun _ _ => true) (by decide) 0 (by decide)⟩

/-- C8.  The claim asserts the feature-preparation stage fails with a
`DataError` when required feature columns are absent.  It is false:
`prepare_features` zero-fills every missing column and proceeds (no
error type exists anywhere in the source).  With all ten required
columns absent it still returns the full ten-column feature table,
each column filled with zeros. -/
theorem missing_columns_zero_filled :
    (prepareFeatureTable [] (fun _ => []) 1).length = 10 ∧
    ("MI_i", [(0 : ℚ)]) ∈ prepareFeatureTable [] (fun _ => []) 1 := by
  constructor
  · rfl
  · decide

/-- C8 (amended).  When a required feature column is absent,
`prepare_features` silently proceeds, emitting that column as all
zeros; the area-variant loader instead surfaces a raw pandas
`KeyError` (modelled `none`) — neither raises a `DataError`, which
does not exist in the source. -/
theorem feature_preparation_behavior :
    (∀ (cols : List String) (colVal : String → List ℚ) (nrows : ℕ) (c : String),
      c ∈ featureColumns → c ∉ cols →
      (c, List.replicate nrows (0 : ℚ)) ∈ prepareFeatureTable cols colVal nrows) ∧
    (∀ (cols : List String) (colVal : String → List ℚ),
      (∃ c ∈ areaFeatureColumns, c ∉ cols) →
      loadAndPrepareFeaturesArea cols colVal = none) := by
  constructor
  · intro cols colVal nrows c hc hnc
    simp only [prepareFeatureTable, List.mem_map]
    exact ⟨c, hc, by rw [if_neg hnc]⟩
  · rintro cols colVal ⟨c, hc, hnc⟩
    unfold loadAndPrepareFeaturesArea
    rw [if_neg]
    intro hall
    exact hnc (hall c hc)

/-- C8 witness: the amended theorem with every column absent. -/
theorem feature_preparation_behavior_witness :
    ("P_i", List.replicate 1 (0 : ℚ)) ∈ prepareFeatureTable [] (fun _ => []) 1 ∧
    loadAndPrepareFeaturesArea [] (fun _ => []) = none :=
  ⟨feature_preparation_behavior.1 [] (fun _ => []) 1 ("P_i") (by decide) (by decide),
   feature_preparation_behavior.2 [] (fun _ => [])
     ⟨("Total_Total"), by decide, by decide⟩⟩

/-- C9.  The proportional fallback is deterministic: it is a pure
function of the priority-score vector and the budget — it consults no
randomness and no external state (and `np.argsort`, the only
order-dependent step, is itself a deterministic procedure) — so equal
inputs give equal allocation vectors. -/
theorem proportional_fallback_deterministic (ps₁ ps₂ : List ℚ) (B₁ B₂ : ℤ)
    (hps : ps₁ = ps₂) (hB : B₁ = B₂) :
    finalAedAllocation ps₁ B₁ = finalAedAllocation ps₂ B₂ := by
  rw [hps, hB]

/-- C9 witness: two runs on the identical Scenario-A style input. -/
theorem proportional_fallback_deterministic_witness :
    finalAedAllocation [1, 2] 5 = finalAedAllocation [1, 2] 5 :=
  proportional_fallback_deterministic [1, 2] [1, 2] 5 5 rfl rfl

/-- C10.  The subzone-to-subzone coverage matrix is symmetric whenever
the underlying pairwise distance is (as the great-circle distance is):
both the `i != j` guard and the radius test are symmetric in the two
endpoints. -/
theorem coverage_matrix_symmetric (dist : ℕ → ℕ → ℚ) (radius : ℚ) (n : ℕ)
    (hsym : ∀ a b, dist a b = dist b a) (i j : ℕ) :
    createCoverageMatrix dist radius n i j = createCoverageMatrix dist radius n j i := by
  unfold createCoverageMatrix
  rw [hsym i j]
  refine if_congr ?_ rfl rfl
  constructor
  · rintro ⟨h1, h2, h3, h4⟩
    exact ⟨h2, h1, h3.symm, h4⟩
  · rintro ⟨h1, h2, h3, h4⟩
    exact ⟨h2, h1, h3.symm, h4⟩

/-- C10 witness: symmetry at a concrete symmetric distance function. -/
theorem coverage_matrix_symmetric_witness :
    createCoverageMatrix (fun a b => |(a : ℚ) - (b : ℚ)|) 200 2 0 1 =
    createCoverageMatrix (fun a b => |(a : ℚ) - (b : ℚ)|) 200 2 1 0 :=
  coverage_matrix_symmetric _ 200 2 (fun u v => abs_sub_comm (u : ℚ) (v : ℚ)) 0 1

end NT
